import Mathlib

/-!
Formal model of the subtitle-generation core of `Videotosrt.py`
(class `AdvancedSubtitleGenerator`).

Embedding conventions:

* Python floats are modelled as exact rationals (`ℚ`).  All numeric
  operations of the core (subtraction, comparison, `divmod`, `round`,
  `"%.3f"` formatting, `np.mean`) are exact on the rational model.
* Python strings are Lean `String`s; list/character manipulation is done
  on `String.data` where convenient.  `str.join`, `str.split`,
  `str.strip`, `str.capitalize`, `str.replace` are given explicit
  executable models below.
* The dictionaries used by the source for words, utterances and cues
  become the structures `Word`, `Utterance` and `Cue`.  The Python key
  `end` is called `stop` here (`end` is a Lean keyword).
* Fallible code is modelled with `Option`: `_merge_segment` raises
  `IndexError` on an empty list (`items[0]`), so its model returns
  `none` there, and `_optimize_segmentation` propagates the failure.
* The punctuation-restoration collaborator (`_restore_punctuation`) is
  an external service; it is modelled as an arbitrary function
  `restore : String → String` passed to the normalizer.  When the
  punctuator is disabled the source returns the text unchanged, i.e.
  `restore = id`.
-/

/-! ### Decimal rendering of natural numbers (Python `str(int)` / zero padding) -/

/-- One decimal digit as a character. -/
def digitChar (d : ℕ) : Char :=
  if d = 0 then '0' else if d = 1 then '1' else if d = 2 then '2' else if d = 3 then '3'
  else if d = 4 then '4' else if d = 5 then '5' else if d = 6 then '6' else if d = 7 then '7'
  else if d = 8 then '8' else if d = 9 then '9' else '*'

/-- Decimal digits of `n`, most significant first; `fuel` bounds the recursion
(`fuel ≥ n` suffices since `n / 10 < n` for `n > 0`). -/
def natDigitsAux : ℕ → ℕ → List Char
  | 0, _ => []
  | fuel+1, n => if n = 0 then [] else natDigitsAux fuel (n / 10) ++ [digitChar (n % 10)]

/-- Decimal rendering of a natural number, as Python `str` produces it. -/
def natRepr (n : ℕ) : String :=
  if n = 0 then "0" else String.mk (natDigitsAux (n+1) n)

/-- Zero-pad to (at least) two digits: Python `f"{n:02}"` for nonnegative `n`. -/
def pad2 (n : ℕ) : String := if n < 10 then "0" ++ natRepr n else natRepr n

/-- Zero-pad to (at least) three digits. -/
def pad3 (n : ℕ) : String :=
  if n < 10 then "00" ++ natRepr n else if n < 100 then "0" ++ natRepr n else natRepr n

/-! ### Rational models of Python float operations -/

/-- Round a rational to the nearest integer, ties to the even integer.  This is
the rounding used by Python float formatting and `round()`.  (On binary floats
an exact tie against a decimal grid cannot occur, so the tie rule is
unobservable in the source; half-even is Python's documented behaviour.) -/
def roundHalfEven (q : ℚ) : ℤ :=
  if q - ⌊q⌋ < 1/2 then ⌊q⌋
  else if 1/2 < q - ⌊q⌋ then ⌊q⌋ + 1
  else if ⌊q⌋ % 2 = 0 then ⌊q⌋ else ⌊q⌋ + 1

/-- Python `round(x, 2)` on the rational model. -/
def round2 (q : ℚ) : ℚ := (roundHalfEven (q * 100) : ℚ) / 100

/-! ### String helpers mirroring the Python string methods used by the source -/

/-- Python `s.replace('.', ',')`: with a one-character pattern, replacement is
a character-wise map. -/
def replaceDot (cs : List Char) : List Char :=
  cs.map (fun c => if c = '.' then ',' else c)

/-- Python `'\n'.join` on raw character lists. -/
def intercalateNl : List (List Char) → List Char
  | [] => []
  | [t] => t
  | t :: t2 :: ts => t ++ '\n' :: intercalateNl (t2 :: ts)

/-- Python `'\n'.join` on strings. -/
def joinNl : List String → String
  | [] => ""
  | [s] => s
  | s :: s2 :: rest => s ++ "\n" ++ joinNl (s2 :: rest)

/-- Python `' '.join` on strings. -/
def joinSpace : List String → String
  | [] => ""
  | [s] => s
  | s :: s2 :: rest => s ++ " " ++ joinSpace (s2 :: rest)

/-- Python `s.split('\n')`. -/
def splitLines : List Char → List (List Char)
  | [] => [[]]
  | c :: cs =>
    if c = '\n' then [] :: splitLines cs
    else
      match splitLines cs with
      | [] => [[c]]
      | l :: ls => (c :: l) :: ls

/-- The whitespace characters removed by Python `str.strip()`. -/
def isPySpace (c : Char) : Bool :=
  c = ' ' || c = '\t' || c = '\n' || c = '\r' || c = '\x0B' || c = '\x0C'

/-- Python `s.strip()`: drop whitespace from both ends. -/
def pyStrip (cs : List Char) : List Char :=
  ((cs.dropWhile isPySpace).reverse.dropWhile isPySpace).reverse

/-- Python `s.capitalize()`: first character upper-cased, the rest lower-cased
(ASCII case mapping suffices for the texts of interest). -/
def pyCapitalize : List Char → List Char
  | [] => []
  | c :: cs => c.toUpper :: cs.map Char.toLower

/-- The string is non-empty and its last character is `.`, `?` or `!`. -/
def endsPunct (s : String) : Prop :=
  ∃ L, s.data.getLast? = some L ∧ (L = '.' ∨ L = '?' ∨ L = '!')

/-! ### Data model -/

/-- One word token of a recognizer result group (`{word, start, end, conf}`). -/
structure Word where
  word : String
  start : ℚ
  stop : ℚ
  conf : ℚ
deriving DecidableEq

/-- One normalized utterance, as produced by `_process_results`. -/
structure Utterance where
  start : ℚ
  stop : ℚ
  text : String
  confidence : ℚ
  speaker : String
deriving DecidableEq

/-- One subtitle cue, as produced by `_merge_segment` (the source reuses the
same dictionary shape as for utterances). -/
structure Cue where
  start : ℚ
  stop : ℚ
  text : String
  confidence : ℚ
  speaker : String
deriving DecidableEq

/-- The configuration keys consumed by the core
(`max_duration`, `max_chars`, `max_lines`, `speaker_diarization`). -/
structure Config where
  max_duration : ℚ
  max_chars : ℕ
  max_lines : ℕ
  speaker_diarization : Bool
deriving DecidableEq

/-! ### Utterance Normalizer: `_process_results` (src/Videotosrt.py lines 119-140) -/

/-- The body of the `_process_results` loop for a non-empty word group
`w :: ws`, with the punctuation collaborator `restore`:

* `start = round(words[0]['start'], 2)`, `end = round(words[-1]['end'], 2)`;
* `raw_text = ' '.join(w['word'] for w in words)`;
* `text = restore(raw_text)`, then `if text and text[-1] not in
  {'.','?','!'}: text += '.'`;
* emitted text is `text.strip().capitalize()`, confidence is the mean of
  the word confidences, speaker is the placeholder `"SPK1"`. -/
def mkUtterance (restore : String → String) (w : Word) (ws : List Word) : Utterance :=
  let t1 : String := restore (joinSpace ((w :: ws).map (fun x => x.word)))
  let t2 : String := if t1 ≠ "" ∧ ¬(t1.data.getLastD ' ' = '.' ∨ t1.data.getLastD ' ' = '?' ∨ t1.data.getLastD ' ' = '!')
    then t1 ++ "." else t1
  { start := round2 w.start
    stop := round2 ((ws.getLastD w).stop)
    text := String.mk (pyCapitalize (pyStrip t2.data))
    confidence := ((w :: ws).map (fun x => x.conf)).sum / (((w :: ws).length : ℚ))
    speaker := "SPK1" }

/-- `_process_results`: groups with a falsy word list (`res.get('result')`
missing or empty) are skipped; each non-empty group yields one utterance. -/
def processResults (restore : String → String) : List (List Word) → List Utterance
  | [] => []
  | [] :: rest => processResults restore rest
  | (w :: ws) :: rest => mkUtterance restore w ws :: processResults restore rest

/-! ### Cue Optimizer: `_optimize_segmentation` and `_merge_segment`
(src/Videotosrt.py lines 142-175) -/

/-- `sum(len(i['text']) for i in buffer)`. -/
def bufLen (buf : List Utterance) : ℕ := (buf.map (fun u => u.text.length)).sum

/-- Time span of a buffer: `items[-1]['end'] - items[0]['start']`. -/
def bufSpan (buf : List Utterance) : ℚ :=
  match buf with
  | [] => 0
  | b :: bs => (bs.getLastD b).stop - b.start

/-- The `_optimize_segmentation` loop, recorded at the level of flushed
buffers: the returned list contains, in order, exactly the buffers the
source passes to `_merge_segment` (each flush inside the loop, plus the
final non-empty buffer).  The first argument is the current `buffer`, the
second the remaining input `items`. -/
def optimizeLoop (cfg : Config) : List Utterance → List Utterance → List (List Utterance)
  | buf, [] => if buf.isEmpty then [] else [buf]
  | [], item :: rest => optimizeLoop cfg [item] rest
  | b :: bs, item :: rest =>
    if item.stop - b.start ≤ cfg.max_duration ∧
        bufLen (b :: bs) + item.text.length ≤ cfg.max_chars * cfg.max_lines ∧
        (b :: bs).length < cfg.max_lines then
      optimizeLoop cfg (b :: bs ++ [item]) rest
    else (b :: bs) :: optimizeLoop cfg [item] rest

/-- The buffers flushed by `_optimize_segmentation(items)` (initial buffer
is empty). -/
def optimizeGroups (cfg : Config) (items : List Utterance) : List (List Utterance) :=
  optimizeLoop cfg [] items

/-- `_merge_segment`: `items[0]` raises `IndexError` on an empty list, so the
empty case is `none`.  Otherwise: first start, last end, texts joined by a
line break, mean confidence, first speaker. -/
def mergeSegment : List Utterance → Option Cue
  | [] => none
  | i :: rest => some
    { start := i.start
      stop := (rest.getLastD i).stop
      text := String.mk (intercalateNl ((i :: rest).map (fun u => u.text.data)))
      confidence := ((i :: rest).map (fun u => u.confidence)).sum / (((i :: rest).length : ℚ))
      speaker := i.speaker }

/-- Merge every flushed buffer, propagating a merge failure. -/
def mapMerge : List (List Utterance) → Option (List Cue)
  | [] => some []
  | g :: gs =>
    match mergeSegment g, mapMerge gs with
    | some c, some cs => some (c :: cs)
    | _, _ => none

/-- `_optimize_segmentation`: the cues obtained by merging each flushed
buffer, in flush order. -/
def optimizeSegmentation (cfg : Config) (items : List Utterance) : Option (List Cue) :=
  mapMerge (optimizeGroups cfg items)

/-! ### Timecode Formatter: `_format_time` (src/Videotosrt.py lines 187-190) -/

/-- Python `f"{n:02}"` on an integer (a negative value keeps its sign and is
not zero-padded beyond the width). -/
def intFmt2 (n : ℤ) : String :=
  if 0 ≤ n then pad2 n.toNat else "-" ++ natRepr (-n).toNat

/-- Python `f"{q:06.3f}"` for `0 ≤ q < 100` (the range produced by the
`divmod` chain): two zero-padded integer digits, a dot, and the value
rounded to three fractional digits. -/
def fixed63 (q : ℚ) : String :=
  pad2 ((roundHalfEven (q * 1000)).toNat / 1000) ++ "." ++ pad3 ((roundHalfEven (q * 1000)).toNat % 1000)

/-- `_format_time`: `divmod` by 3600 and 60 (floor quotient, exact
remainder), `"%02d:%02d:%06.3f"` formatting, then `.replace('.', ',')`. -/
def formatTime (seconds : ℚ) : String :=
  let hours : ℤ := ⌊seconds / 3600⌋
  let remainder : ℚ := seconds - 3600 * hours
  let minutes : ℤ := ⌊remainder / 60⌋
  let secs : ℚ := remainder - 60 * minutes
  String.mk (replaceDot (intFmt2 hours ++ ":" ++ intFmt2 minutes ++ ":" ++ fixed63 secs).data)

/-! ### Cue Renderer: `_generate_srt` (src/Videotosrt.py lines 177-185) -/

/-- One SRT block: `f"{idx}\n{start} --> {end}\n{speaker}{text}\n"` where the
speaker prefix `"[{speaker}] "` appears only when `speaker_diarization` is
enabled. -/
def cueBlock (cfg : Config) (idx : ℕ) (seg : Cue) : String :=
  natRepr idx ++ "\n" ++ formatTime seg.start ++ " --> " ++ formatTime seg.stop ++ "\n" ++
    (if cfg.speaker_diarization then "[" ++ seg.speaker ++ "] " else "") ++ seg.text ++ "\n"

/-- The blocks of `enumerate(segments, idx)`. -/
def blocksFrom (cfg : Config) : ℕ → List Cue → List String
  | _, [] => []
  | idx, seg :: rest => cueBlock cfg idx seg :: blocksFrom cfg (idx + 1) rest

/-- `_generate_srt`: the document text written to the output file,
`'\n'.join` of the enumerated blocks (enumeration starts at 1). -/
def generateSrt (cfg : Config) (segments : List Cue) : String :=
  joinNl (blocksFrom cfg 1 segments)

/-! ### Optimizer lemmas -/

/-- Concatenating the flushed buffers of a run that starts with buffer `buf`
recovers `buf` followed by the remaining input. -/
theorem optimizeLoop_flatten (cfg : Config) :
    ∀ (items buf : List Utterance), (optimizeLoop cfg buf items).flatten = buf ++ items := by
  intro items
  induction items with
  | nil =>
    intro buf
    cases buf <;> simp [optimizeLoop]
  | cons item rest ih =>
    intro buf
    cases buf with
    | nil =>
      simp only [optimizeLoop]
      simpa using ih [item]
    | cons b bs =>
      simp only [optimizeLoop]
      split
      · rw [ih]
        simp
      · simp only [List.flatten_cons]
        rw [ih]
        simp

/-- Every flushed buffer is non-empty. -/
theorem optimizeLoop_ne_nil (cfg : Config) :
    ∀ (items buf g : List Utterance), g ∈ optimizeLoop cfg buf items → g ≠ [] := by
  intro items
  induction items with
  | nil =>
    intro buf g hg
    cases buf with
    | nil => simp [optimizeLoop] at hg
    | cons b bs =>
      simp [optimizeLoop] at hg
      simp [hg]
  | cons item rest ih =>
    intro buf g hg
    cases buf with
    | nil =>
      simp only [optimizeLoop] at hg
      exact ih _ _ hg
    | cons b bs =>
      simp only [optimizeLoop] at hg
      split at hg
      · exact ih _ _ hg
      · rcases List.mem_cons.mp hg with h | h
        · simp [h]
        · exact ih _ _ h

theorem bufLen_append (l1 l2 : List Utterance) : bufLen (l1 ++ l2) = bufLen l1 + bufLen l2 := by
  simp [bufLen]

/-- The packing invariant: if the starting buffer respects the caps whenever
it holds more than one utterance, then so does every flushed buffer.  The
caps are exactly the acceptance conditions of the loop. -/
theorem optimizeLoop_packed (cfg : Config) :
    ∀ (items buf : List Utterance),
      (1 < buf.length →
        bufSpan buf ≤ cfg.max_duration ∧ bufLen buf ≤ cfg.max_chars * cfg.max_lines ∧
          buf.length ≤ cfg.max_lines) →
      ∀ g ∈ optimizeLoop cfg buf items,
        1 < g.length →
          bufSpan g ≤ cfg.max_duration ∧ bufLen g ≤ cfg.max_chars * cfg.max_lines ∧
            g.length ≤ cfg.max_lines := by
  intro items
  induction items with
  | nil =>
    intro buf hbuf g hg
    cases buf with
    | nil => simp [optimizeLoop] at hg
    | cons b bs =>
      simp [optimizeLoop] at hg
      subst hg
      exact hbuf
  | cons item rest ih =>
    intro buf hbuf g hg
    cases buf with
    | nil =>
      simp only [optimizeLoop] at hg
      exact ih [item] (by simp) g hg
    | cons b bs =>
      simp only [optimizeLoop] at hg
      split at hg
      case isTrue h =>
        refine ih (b :: bs ++ [item]) ?_ g hg
        intro _
        refine ⟨?_, ?_, ?_⟩
        · show ((bs ++ [item]).getLastD b).stop - b.start ≤ cfg.max_duration
          rw [List.getLastD_concat]
          exact h.1
        · show bufLen ((b :: bs) ++ [item]) ≤ cfg.max_chars * cfg.max_lines
          rw [bufLen_append]
          simpa [bufLen] using h.2.1
        · have h3 : bs.length + 1 < cfg.max_lines := by simpa using h.2.2
          simp only [List.length_cons, List.length_append, List.length_nil]
          omega
      case isFalse h =>
        rcases List.mem_cons.mp hg with h1 | h1
        · subst h1
          exact hbuf
        · exact ih [item] (by simp) g h1

/-- Merging a list of non-empty buffers never fails. -/
theorem mapMerge_some :
    ∀ gs : List (List Utterance), (∀ g ∈ gs, g ≠ []) → ∃ cs, mapMerge gs = some cs := by
  intro gs
  induction gs with
  | nil => exact fun _ => ⟨[], rfl⟩
  | cons g gs ih =>
    intro h
    obtain ⟨cs, hcs⟩ := ih (fun x hx => h x (List.mem_cons_of_mem g hx))
    have hg : g ≠ [] := h g (List.mem_cons_self g gs)
    cases g with
    | nil => exact absurd rfl hg
    | cons i rest =>
      cases hms : mergeSegment (i :: rest) with
      | none => simp [mergeSegment] at hms
      | some c => exact ⟨c :: cs, by simp [mapMerge, hms, hcs]⟩

/-! ### Concrete fixtures (the scenario of spec section 8, with rational
timestamps written as fractions) -/

def cfgA : Config :=
  { max_duration := 8, max_chars := 45, max_lines := 2, speaker_diarization := false }

def uttA : Utterance :=
  { start := 0, stop := 3/2, text := "Hello.", confidence := 1, speaker := "SPK1" }

def uttB : Utterance :=
  { start := 8/5, stop := 3, text := "World.", confidence := 9/10, speaker := "SPK1" }

def uttC : Utterance :=
  { start := 31/10, stop := 19/2, text := "Third.", confidence := 1, speaker := "SPK1" }

theorem groupsA : optimizeGroups cfgA [uttA, uttB, uttC] = [[uttA, uttB], [uttC]] := by
  norm_num [optimizeGroups, optimizeLoop, cfgA, uttA, uttB, uttC, bufLen]
  decide

def cueAB : Cue :=
  { start := 0, stop := 3, text := "Hello.\nWorld.", confidence := 19/20, speaker := "SPK1" }

theorem mergeAB : mergeSegment [uttA, uttB] = some cueAB := by
  simp [mergeSegment, uttA, uttB, cueAB, intercalateNl]
  norm_num

/-! ### Claims about the Cue Optimizer -/

/-- C1: for every finite ordered utterance sequence and every configuration
with positive `max_duration`, positive `max_chars` and `max_lines ≥ 1`, the
flushed buffers of the optimizer (the constituent utterances of its cues, in
cue order) concatenate back to exactly the input sequence: no utterance is
lost, duplicated, reordered, or split across cues. -/
theorem C1_optimizer_coverage (cfg : Config) (items : List Utterance)
    (hd : 0 < cfg.max_duration) (hc : 0 < cfg.max_chars) (hl : 1 ≤ cfg.max_lines) :
    (optimizeGroups cfg items).flatten = items := by
  simpa using optimizeLoop_flatten cfg items []

theorem C1_optimizer_coverage_witness :
    (0:ℚ) < cfgA.max_duration ∧ 0 < cfgA.max_chars ∧ 1 ≤ cfgA.max_lines ∧
      (optimizeGroups cfgA [uttA, uttB, uttC]).flatten = [uttA, uttB, uttC] :=
  ⟨by norm_num [cfgA], by norm_num [cfgA], by norm_num [cfgA],
    C1_optimizer_coverage cfgA [uttA, uttB, uttC]
      (by norm_num [cfgA]) (by norm_num [cfgA]) (by norm_num [cfgA])⟩

/-- C2: every produced cue with more than one constituent utterance satisfies
all three caps: its span `end - start` is at most `max_duration`, the total
length of its constituent texts is at most `max_chars * max_lines`, and its
number of lines (= constituent utterances) is at most `max_lines`. -/
theorem C2_cap_respect (cfg : Config) (items g : List Utterance) (c : Cue)
    (hg : g ∈ optimizeGroups cfg items) (hc : mergeSegment g = some c)
    (h2 : 1 < g.length) :
    c.stop - c.start ≤ cfg.max_duration ∧ bufLen g ≤ cfg.max_chars * cfg.max_lines ∧
      g.length ≤ cfg.max_lines := by
  have hp := optimizeLoop_packed cfg items [] (by simp) g hg h2
  cases g with
  | nil => simp [mergeSegment] at hc
  | cons i rest =>
    simp only [mergeSegment, Option.some.injEq] at hc
    subst hc
    exact hp

theorem C2_cap_respect_witness :
    cueAB.stop - cueAB.start ≤ cfgA.max_duration ∧
      bufLen [uttA, uttB] ≤ cfgA.max_chars * cfgA.max_lines ∧
        ([uttA, uttB] : List Utterance).length ≤ cfgA.max_lines :=
  C2_cap_respect cfgA [uttA, uttB, uttC] [uttA, uttB] cueAB
    (by rw [groupsA]; exact List.mem_cons_self _ _) mergeAB (by norm_num)

/-- C4: with a non-empty buffer `b :: bs`, an incoming utterance is appended
to the buffer exactly when all three conditions hold jointly — prospective
duration `item.end - buffer[0].start ≤ max_duration` (inclusive), prospective
character total `≤ max_chars * max_lines` (inclusive), and buffer occupancy
strictly below `max_lines`; otherwise the buffer is flushed and a fresh
buffer `[item]` is started.  Equality on the duration or character cap still
accepts the utterance; a buffer of `max_lines` utterances rejects it. -/
theorem C4_accept_condition (cfg : Config) (b : Utterance) (bs : List Utterance)
    (item : Utterance) (rest : List Utterance) :
    optimizeLoop cfg (b :: bs) (item :: rest) =
      if item.stop - b.start ≤ cfg.max_duration ∧
          bufLen (b :: bs) + item.text.length ≤ cfg.max_chars * cfg.max_lines ∧
          (b :: bs).length < cfg.max_lines then
        optimizeLoop cfg (b :: bs ++ [item]) rest
      else (b :: bs) :: optimizeLoop cfg [item] rest := by
  simp only [optimizeLoop]

/-- C7: the empty utterance sequence yields an empty cue sequence with no
failure, and rendering the empty cue sequence yields the empty document. -/
theorem C7_empty_input (cfg : Config) :
    optimizeSegmentation cfg [] = some [] ∧ generateSrt cfg [] = "" :=
  ⟨rfl, rfl⟩

/-- C10: every flushed buffer passed to the merge step is non-empty, so the
accesses `items[0]` and `items[-1]` in `_merge_segment` are in bounds and the
whole optimization never fails and never produces a cue from an empty
buffer. -/
theorem C10_merge_safety (cfg : Config) (items : List Utterance) :
    (∀ g ∈ optimizeGroups cfg items, g ≠ []) ∧
      ∃ cues, optimizeSegmentation cfg items = some cues := by
  refine ⟨fun g hg => optimizeLoop_ne_nil cfg items [] g hg, ?_⟩
  obtain ⟨cs, hcs⟩ := mapMerge_some (optimizeGroups cfg items)
    (fun g hg => optimizeLoop_ne_nil cfg items [] g hg)
  exact ⟨cs, hcs⟩

/-! ### Timecode formatter lemmas -/

theorem digitChar_ne_dot (d : ℕ) : digitChar d ≠ '.' := by
  unfold digitChar
  split_ifs <;> decide

theorem natDigitsAux_no_dot : ∀ (fuel n : ℕ), ∀ c ∈ natDigitsAux fuel n, c ≠ '.' := by
  intro fuel
  induction fuel with
  | zero =>
    intro n c hc
    simp [natDigitsAux] at hc
  | succ f ih =>
    intro n c hc
    simp only [natDigitsAux] at hc
    split at hc
    · simp at hc
    · rcases List.mem_append.mp hc with h | h
      · exact ih _ c h
      · simp at h
        subst h
        exact digitChar_ne_dot _

theorem natRepr_no_dot (n : ℕ) : ∀ c ∈ (natRepr n).data, c ≠ '.' := by
  unfold natRepr
  split
  · intro c hc
    simp at hc
    subst hc
    decide
  · intro c hc
    exact natDigitsAux_no_dot _ _ c hc

theorem pad2_no_dot (n : ℕ) : ∀ c ∈ (pad2 n).data, c ≠ '.' := by
  unfold pad2
  split
  · intro c hc
    rw [String.data_append] at hc
    rcases List.mem_append.mp hc with h | h
    · intro heq
      subst heq
      revert h
      decide
    · exact natRepr_no_dot n c h
  · exact natRepr_no_dot n

theorem pad3_no_dot (n : ℕ) : ∀ c ∈ (pad3 n).data, c ≠ '.' := by
  unfold pad3
  split
  · intro c hc
    rw [String.data_append] at hc
    rcases List.mem_append.mp hc with h | h
    · intro heq
      subst heq
      revert h
      decide
    · exact natRepr_no_dot n c h
  · split
    · intro c hc
      rw [String.data_append] at hc
      rcases List.mem_append.mp hc with h | h
      · intro heq
        subst heq
        revert h
        decide
      · exact natRepr_no_dot n c h
    · exact natRepr_no_dot n

theorem replaceDot_append (a b : List Char) :
    replaceDot (a ++ b) = replaceDot a ++ replaceDot b := by
  simp [replaceDot]

theorem replaceDot_no_dot (cs : List Char) (h : ∀ c ∈ cs, c ≠ '.') : replaceDot cs = cs := by
  induction cs with
  | nil => rfl
  | cons c cs ih =>
    have hc : c ≠ '.' := h c (List.mem_cons_self c cs)
    simp only [replaceDot, List.map_cons, if_neg hc]
    have := ih (fun x hx => h x (List.mem_cons_of_mem c hx))
    simpa [replaceDot] using this

theorem intFmt2_nonneg (n : ℤ) (h : 0 ≤ n) : intFmt2 n = pad2 n.toNat := by
  unfold intFmt2
  rw [if_pos h]

theorem floor_sixty_split (q : ℚ) :
    ⌊q / 60⌋ = 60 * ⌊q / 3600⌋ + ⌊(q - 3600 * (⌊q / 3600⌋ : ℚ)) / 60⌋ := by
  have key : q / 60 = (q - 3600 * (⌊q / 3600⌋ : ℚ)) / 60 + ((60 * ⌊q / 3600⌋ : ℤ) : ℚ) := by
    push_cast
    ring
  rw [key, Int.floor_add_int]
  ring

theorem rem_nonneg (q : ℚ) : 0 ≤ q - 3600 * (⌊q / 3600⌋ : ℚ) := by
  linarith [Int.floor_le (q / 3600)]

theorem rem_lt (q : ℚ) : q - 3600 * (⌊q / 3600⌋ : ℚ) < 3600 := by
  linarith [Int.lt_floor_add_one (q / 3600)]

/-! ### The timecode contract of the specification, in two readings

The spec describes the output as `HH:MM:SS,mmm` with zero-padded 2-digit
components, unbounded hours and a comma before the milliseconds; it says the
three millisecond digits are obtained by TRUNCATING the fractional-second
representation.  `formatTimeSpecTrunc` renders that wording literally.
`formatTimeSpecRound` is the same contract with the milliseconds (together
with the seconds they overflow into) obtained by ROUNDING the fractional
remainder to three decimals, which is what `%.3f` does. -/

/-- The claimed contract with truncated milliseconds. -/
def formatTimeSpecTrunc (q : ℚ) : String :=
  pad2 (⌊q / 3600⌋).toNat ++ ":" ++ pad2 ((⌊q / 60⌋).toNat % 60) ++ ":" ++
    pad2 ((⌊q⌋).toNat % 60) ++ "," ++ pad3 ((⌊q * 1000⌋).toNat % 1000)

/-- The contract with rounded milliseconds. -/
def formatTimeSpecRound (q : ℚ) : String :=
  pad2 (⌊q / 3600⌋).toNat ++ ":" ++ pad2 ((⌊q / 60⌋).toNat % 60) ++ ":" ++
    pad2 ((roundHalfEven ((q - 60 * ⌊q / 60⌋) * 1000)).toNat / 1000) ++ "," ++
    pad3 ((roundHalfEven ((q - 60 * ⌊q / 60⌋) * 1000)).toNat % 1000)

/-- C5 (amended): for every non-negative number of seconds the formatter
returns `HH:MM:SS,mmm` — hours `⌊q/3600⌋` zero-padded to two digits and
unbounded (no wraparound at 24), minutes `⌊q/60⌋ mod 60` zero-padded, a
comma before the milliseconds, and the seconds-plus-milliseconds field
obtained by ROUNDING the fractional remainder `q mod 60` to three decimal
digits (Python `%.3f`), not by truncating it. -/
theorem C5_format_contract (q : ℚ) (hq : 0 ≤ q) : formatTime q = formatTimeSpecRound q := by
  have hh0 : (0:ℤ) ≤ ⌊q / 3600⌋ := Int.floor_nonneg.mpr (by positivity)
  have hr0 : 0 ≤ q - 3600 * (⌊q / 3600⌋ : ℚ) := rem_nonneg q
  have hr36 : q - 3600 * (⌊q / 3600⌋ : ℚ) < 3600 := rem_lt q
  have hm0 : (0:ℤ) ≤ ⌊(q - 3600 * (⌊q / 3600⌋ : ℚ)) / 60⌋ := Int.floor_nonneg.mpr (by positivity)
  have hm60 : ⌊(q - 3600 * (⌊q / 3600⌋ : ℚ)) / 60⌋ < 60 := Int.floor_lt.mpr (by push_cast; linarith)
  have hsplit := floor_sixty_split q
  have hmin : (⌊q / 60⌋).toNat % 60 = (⌊(q - 3600 * (⌊q / 3600⌋ : ℚ)) / 60⌋).toNat := by
    omega
  have hsecs : q - 60 * (⌊q / 60⌋ : ℚ) =
      q - 3600 * (⌊q / 3600⌋ : ℚ) - 60 * ((⌊(q - 3600 * (⌊q / 3600⌋ : ℚ)) / 60⌋ : ℤ) : ℚ) := by
    rw [hsplit]
    push_cast
    ring
  have hp2 : ∀ n, replaceDot (pad2 n).data = (pad2 n).data :=
    fun n => replaceDot_no_dot _ (pad2_no_dot n)
  have hp3 : ∀ n, replaceDot (pad3 n).data = (pad3 n).data :=
    fun n => replaceDot_no_dot _ (pad3_no_dot n)
  have hcolon : replaceDot ":".data = ":".data := by decide
  have hdot : replaceDot ".".data = ",".data := by decide
  simp only [formatTime, formatTimeSpecRound, fixed63]
  rw [intFmt2_nonneg _ hh0, intFmt2_nonneg _ hm0, hmin, hsecs]
  apply String.ext
  simp only [String.data_append, replaceDot_append, hp2, hp3, hcolon, hdot]
  simp [List.append_assoc]

/-- C5 witness: the contract instantiated at 3725.6 seconds. -/
theorem C5_format_contract_witness :
    (0:ℚ) ≤ 3725.6 ∧ formatTime (3725.6 : ℚ) = formatTimeSpecRound (3725.6 : ℚ) :=
  ⟨by norm_num, C5_format_contract (3725.6 : ℚ) (by norm_num)⟩

/-- C5 counterexample: at 0.0006 seconds the code rounds the milliseconds up
to `001`, while the truncation described by the claim would produce `000`.
So the millisecond digits are not obtained by truncation. -/
theorem C5_truncation_cex :
    formatTime (6/10000 : ℚ) = "00:00:00,001" ∧
      formatTimeSpecTrunc (6/10000 : ℚ) = "00:00:00,000" ∧
      formatTime (6/10000 : ℚ) ≠ formatTimeSpecTrunc (6/10000 : ℚ) := by
  have h1 : ⌊(6/10000 : ℚ) / 3600⌋ = 0 := by norm_num [Int.floor_eq_iff]
  have h2 : ⌊((6/10000 : ℚ) - 3600 * ((0:ℤ):ℚ)) / 60⌋ = 0 := by norm_num [Int.floor_eq_iff]
  have h3 : roundHalfEven (((6/10000 : ℚ) - 3600 * ((0:ℤ):ℚ) - 60 * ((0:ℤ):ℚ)) * 1000) = 1 := by
    have harg : ((6/10000 : ℚ) - 3600 * ((0:ℤ):ℚ) - 60 * ((0:ℤ):ℚ)) * 1000 = 3/5 := by norm_num
    rw [harg]
    norm_num [roundHalfEven, Int.floor_eq_iff]
  have h3b : roundHalfEven ((3:ℚ)/5) = 1 := by
    norm_num [roundHalfEven, Int.floor_eq_iff]
  have hfmt : formatTime (6/10000 : ℚ) = "00:00:00,001" := by
    simp only [formatTime, h1, h2, h3]
    norm_num [fixed63, h3, h3b, intFmt2, pad2, pad3, natRepr, replaceDot]
    decide
  have h4 : ⌊(6/10000 : ℚ) / 60⌋ = 0 := by norm_num [Int.floor_eq_iff]
  have h5 : ⌊(6/10000 : ℚ)⌋ = 0 := by norm_num [Int.floor_eq_iff]
  have h6 : ⌊(6/10000 : ℚ) * 1000⌋ = 0 := by
    have harg : (6/10000 : ℚ) * 1000 = 3/5 := by norm_num
    rw [harg]
    norm_num [Int.floor_eq_iff]
  have htr : formatTimeSpecTrunc (6/10000 : ℚ) = "00:00:00,000" := by
    simp only [formatTimeSpecTrunc, h1, h4, h5, h6]
    norm_num [pad2, pad3, natRepr]
    decide
  refine ⟨hfmt, htr, ?_⟩
  rw [hfmt, htr]
  decide

/-- C6: formatting 0.0 seconds yields `00:00:00,000` and formatting 3725.6
seconds yields `01:02:05,600`. -/
theorem C6_timecode_examples :
    formatTime (0 : ℚ) = "00:00:00,000" ∧ formatTime (3725.6 : ℚ) = "01:02:05,600" := by
  constructor
  · norm_num [formatTime, intFmt2, fixed63, roundHalfEven, pad2, pad3, natRepr, replaceDot]
    decide
  · have h1 : ⌊(3725.6 : ℚ) / 3600⌋ = 1 := by norm_num [Int.floor_eq_iff]
    have h2 : ⌊((3725.6 : ℚ) - 3600 * ((1:ℤ):ℚ)) / 60⌋ = 2 := by norm_num [Int.floor_eq_iff]
    have h3 : roundHalfEven (((3725.6 : ℚ) - 3600 * ((1:ℤ):ℚ) - 60 * ((2:ℤ):ℚ)) * 1000) = 5600 := by
      have harg : ((3725.6 : ℚ) - 3600 * ((1:ℤ):ℚ) - 60 * ((2:ℤ):ℚ)) * 1000 = 5600 := by norm_num
      rw [harg]
      norm_num [roundHalfEven]
    have h4 : roundHalfEven (5600 : ℚ) = 5600 := by norm_num [roundHalfEven]
    simp only [formatTime, h1, h2, h3]
    norm_num [fixed63, h3, h4, intFmt2, pad2, pad3, natRepr, replaceDot]
    decide

/-! ### Line-splitting lemmas for cue texts -/

theorem string_length_data (s : String) : s.length = s.data.length := rfl

theorem splitLines_no_nl (t : List Char) (h : '\n' ∉ t) : splitLines t = [t] := by
  induction t with
  | nil => rfl
  | cons c cs ih =>
    have hc : c ≠ '\n' := fun heq => h (heq ▸ List.mem_cons_self c cs)
    have hcs : '\n' ∉ cs := fun hm => h (List.mem_cons_of_mem c hm)
    simp only [splitLines, if_neg hc, ih hcs]

theorem splitLines_append_nl (t cs : List Char) (h : '\n' ∉ t) :
    splitLines (t ++ '\n' :: cs) = t :: splitLines cs := by
  induction t with
  | nil => simp [splitLines]
  | cons c ct ih =>
    have hc : c ≠ '\n' := fun heq => h (heq ▸ List.mem_cons_self c ct)
    have hct : '\n' ∉ ct := fun hm => h (List.mem_cons_of_mem c hm)
    simp only [List.cons_append, splitLines, if_neg hc, List.append_eq]
    rw [ih hct]

/-- Splitting on line breaks inverts joining with line breaks, as long as the
joined pieces themselves contain no line break. -/
theorem splitLines_intercalateNl :
    ∀ ts : List (List Char), ts ≠ [] → (∀ t ∈ ts, '\n' ∉ t) →
      splitLines (intercalateNl ts) = ts := by
  intro ts
  induction ts with
  | nil => intro h; exact absurd rfl h
  | cons t ts ih =>
    intro _ hnl
    cases ts with
    | nil => exact splitLines_no_nl t (hnl t (List.mem_cons_self t []))
    | cons t2 ts2 =>
      have h1 : '\n' ∉ t := hnl t (List.mem_cons_self _ _)
      simp only [intercalateNl]
      rw [splitLines_append_nl _ _ h1]
      rw [ih (by simp) (fun x hx => hnl x (List.mem_cons_of_mem t hx))]

/-- Every utterance of a flushed buffer comes from the input sequence. -/
theorem mem_of_mem_groups (cfg : Config) (items : List Utterance) (g : List Utterance)
    (u : Utterance) (hg : g ∈ optimizeGroups cfg items) (hu : u ∈ g) : u ∈ items := by
  have h := optimizeLoop_flatten cfg items []
  simp only [List.nil_append] at h
  rw [← h]
  exact List.mem_flatten.mpr ⟨g, hg, hu⟩

/-- C3 (amended): for `max_lines ≥ 1` and utterance texts free of line
breaks, every produced cue has at most `max_lines` lines, and for a cue
merged from more than one utterance the TOTAL length of its lines is at most
`max_chars * max_lines`.  (The per-line bound `max_chars` claimed by the spec
does not hold: the optimizer bounds only the total, see the
counterexample.) -/
theorem C3_cue_lines (cfg : Config) (items g : List Utterance) (c : Cue)
    (hml : 1 ≤ cfg.max_lines) (hnl : ∀ u ∈ items, '\n' ∉ u.text.data)
    (hg : g ∈ optimizeGroups cfg items) (hc : mergeSegment g = some c) :
    (splitLines c.text.data).length ≤ cfg.max_lines ∧
      (1 < g.length →
        ((splitLines c.text.data).map List.length).sum ≤ cfg.max_chars * cfg.max_lines) := by
  cases g with
  | nil => simp [mergeSegment] at hc
  | cons i rest =>
    have hp := optimizeLoop_packed cfg items [] (by simp) (i :: rest) hg
    simp only [mergeSegment, Option.some.injEq] at hc
    subst hc
    have hnl2 : ∀ t ∈ (i :: rest).map (fun u => u.text.data), '\n' ∉ t := by
      intro t ht
      obtain ⟨u, hu, rfl⟩ := List.mem_map.mp ht
      exact hnl u (mem_of_mem_groups cfg items (i :: rest) u hg hu)
    have hsplit : splitLines (String.mk (intercalateNl ((i :: rest).map (fun u => u.text.data)))).data
        = (i :: rest).map (fun u => u.text.data) :=
      splitLines_intercalateNl _ (by simp) hnl2
    constructor
    · rw [hsplit, List.length_map]
      by_cases h2 : 1 < (i :: rest).length
      · exact (hp h2).2.2
      · have : (i :: rest).length = 1 := by
          simp only [List.length_cons] at h2 ⊢
          omega
        rw [this]
        exact hml
    · intro h2
      rw [hsplit]
      have hsum : (((i :: rest).map (fun u => u.text.data)).map List.length).sum
          = bufLen (i :: rest) := by
        simp only [bufLen, List.map_map]
        rfl
      rw [hsum]
      exact (hp h2).2.1

/-- An 80-character single-line text. -/
def tLong : String := String.mk (List.replicate 80 'a')

def uttL1 : Utterance := { start := 0, stop := 1, text := tLong, confidence := 1, speaker := "SPK1" }

def uttL2 : Utterance := { start := 3/2, stop := 2, text := "Bbbbb.", confidence := 1, speaker := "SPK1" }

/-- C3 counterexample: with the default configuration (`max_chars = 45`,
`max_lines = 2`) the optimizer packs an 80-character utterance together with
a 6-character one (total 86 ≤ 45·2, span 2 ≤ 8, occupancy 1 < 2), producing
a cue of TWO constituent utterances whose first line is 80 characters long —
longer than `max_chars`.  The claimed exception covers only cues formed from
a single utterance, so the claimed per-line bound is violated. -/
theorem C3_line_length_cex :
    optimizeGroups cfgA [uttL1, uttL2] = [[uttL1, uttL2]] ∧
      (mergeSegment [uttL1, uttL2]).map (fun c => (splitLines c.text.data).map List.length)
        = some [80, 6] ∧
      ([uttL1, uttL2] : List Utterance).length ≠ 1 ∧
      ¬ (80 ≤ cfgA.max_chars) := by
  refine ⟨?_, ?_, by decide, by decide⟩
  · norm_num [optimizeGroups, optimizeLoop, cfgA, uttL1, uttL2, bufLen, tLong]
    decide
  · simp only [mergeSegment, Option.map_some]
    decide

/-- C3 witness: the amended statement instantiated on the two-cue scenario. -/
theorem C3_cue_lines_witness :
    (splitLines cueAB.text.data).length ≤ cfgA.max_lines ∧
      (1 < ([uttA, uttB] : List Utterance).length →
        ((splitLines cueAB.text.data).map List.length).sum ≤ cfgA.max_chars * cfgA.max_lines) :=
  C3_cue_lines cfgA [uttA, uttB, uttC] [uttA, uttB] cueAB (by norm_num [cfgA])
    (by
      intro u hu
      simp at hu
      rcases hu with rfl | rfl | rfl <;> decide)
    (by rw [groupsA]; exact List.mem_cons_self _ _) mergeAB

/-! ### Renderer lemma and claim C8 -/

theorem blocksFrom_enumFrom (cfg : Config) :
    ∀ (segs : List Cue) (k : ℕ),
      blocksFrom cfg k segs = (List.enumFrom k segs).map (fun p => cueBlock cfg p.1 p.2) := by
  intro segs
  induction segs with
  | nil => intro k; simp [blocksFrom]
  | cons s rest ih =>
    intro k
    simp [blocksFrom, List.enumFrom, ih (k+1)]

/-- C8: the rendered document is exactly the 1-based enumeration of the cue
sequence, each block `"{index}\n{start} --> {end}\n{speaker?}{text}\n"`,
blocks separated by a blank line (a single newline joined after each
block's trailing newline), with the `"[{speaker}] "` prefix present exactly
when `speaker_diarization` is enabled; the renderer reorders, filters and
mutates nothing. -/
theorem C8_render_format (cfg : Config) (segments : List Cue) :
    generateSrt cfg segments =
      joinNl ((List.enumFrom 1 segments).map (fun p =>
        natRepr p.1 ++ "\n" ++ formatTime p.2.start ++ " --> " ++ formatTime p.2.stop ++ "\n" ++
          (if cfg.speaker_diarization then "[" ++ p.2.speaker ++ "] " else "") ++ p.2.text ++ "\n")) := by
  unfold generateSrt
  rw [blocksFrom_enumFrom]
  rfl

/-! ### Normalizer lemmas and claim C9 -/

theorem getLastQ_dropWhile (p : Char → Bool) (cs : List Char) (L : Char)
    (hl : cs.getLast? = some L) (hp : p L = false) :
    (cs.dropWhile p).getLast? = some L := by
  induction cs with
  | nil => cases hl
  | cons a cs ih =>
    cases cs with
    | nil =>
      simp only [List.getLast?_singleton, Option.some.injEq] at hl
      subst hl
      simp [List.dropWhile, hp]
    | cons b cs2 =>
      rw [List.getLast?_cons_cons] at hl
      simp only [List.dropWhile]
      cases hpa : p a with
      | true => simpa using ih hl
      | false => simpa [List.getLast?_cons_cons] using hl

theorem dropWhile_head_false (p : Char → Bool) (l : List Char) (x : Char)
    (hx : l.head? = some x) (hp : p x = false) : l.dropWhile p = l := by
  cases l with
  | nil => rfl
  | cons a l =>
    simp only [List.head?_cons, Option.some.injEq] at hx
    subst hx
    simp [List.dropWhile, hp]

/-- Stripping whitespace keeps the last character when it is not
whitespace. -/
theorem pyStrip_getLast (cs : List Char) (L : Char)
    (hl : cs.getLast? = some L) (hp : isPySpace L = false) :
    (pyStrip cs).getLast? = some L := by
  unfold pyStrip
  have hd : (cs.dropWhile isPySpace).getLast? = some L := getLastQ_dropWhile _ _ _ hl hp
  have hrev : (cs.dropWhile isPySpace).reverse.head? = some L := by
    rw [List.head?_reverse]
    exact hd
  rw [dropWhile_head_false _ _ _ hrev hp, List.reverse_reverse]
  exact hd

theorem getLastQ_map (f : Char → Char) (l : List Char) :
    (l.map f).getLast? = l.getLast?.map f := by
  induction l with
  | nil => rfl
  | cons a l ih =>
    cases l with
    | nil => rfl
    | cons b l2 =>
      simp only [List.map_cons, List.getLast?_cons_cons] at ih ⊢
      simpa using ih

/-- Capitalizing keeps a last character that is a fixpoint of both case
maps. -/
theorem pyCapitalize_getLast (l : List Char) (L : Char) (hl : l.getLast? = some L)
    (h1 : L.toUpper = L) (h2 : L.toLower = L) :
    (pyCapitalize l).getLast? = some L := by
  cases l with
  | nil => cases hl
  | cons c cs =>
    cases cs with
    | nil =>
      simp only [List.getLast?_singleton, Option.some.injEq] at hl
      subst hl
      simp [pyCapitalize, h1]
    | cons b cs2 =>
      rw [List.getLast?_cons_cons] at hl
      simp only [pyCapitalize, List.map_cons]
      rw [List.getLast?_cons_cons]
      have hmap : (Char.toLower b :: List.map Char.toLower cs2).getLast?
          = ((b :: cs2).getLast?).map Char.toLower := by
        rw [← List.map_cons]
        exact getLastQ_map _ _
      rw [hmap, hl]
      simp [h2]

theorem punct_last_preserved (t : List Char) (L : Char)
    (hL : t.getLast? = some L) (hpunct : L = '.' ∨ L = '?' ∨ L = '!') :
    (pyCapitalize (pyStrip t)).getLast? = some L := by
  have hsp : isPySpace L = false := by rcases hpunct with rfl | rfl | rfl <;> rfl
  have hup : L.toUpper = L := by rcases hpunct with rfl | rfl | rfl <;> rfl
  have hlo : L.toLower = L := by rcases hpunct with rfl | rfl | rfl <;> rfl
  exact pyCapitalize_getLast _ _ (pyStrip_getLast _ _ hL hsp) hup hlo

/-- When the restored text is non-empty, the emitted utterance text ends in
terminal punctuation: the source appends a period exactly when the last
character is not already `.`, `?` or `!`, and neither `strip` nor
`capitalize` can disturb that last character. -/
theorem mkUtterance_endsPunct (restore : String → String) (w : Word) (ws : List Word)
    (hne : restore (joinSpace ((w :: ws).map (fun x => x.word))) ≠ "") :
    endsPunct (mkUtterance restore w ws).text := by
  set t1 := restore (joinSpace ((w :: ws).map (fun x => x.word))) with ht1
  have hdata : t1.data ≠ [] := by
    intro h
    exact hne (String.ext (by rw [h]))
  obtain ⟨L, hL⟩ : ∃ L, t1.data.getLast? = some L := by
    rcases hq : t1.data.getLast? with _ | L
    · rw [List.getLast?_eq_none_iff] at hq
      exact absurd hq hdata
    · exact ⟨L, rfl⟩
  have hgd : t1.data.getLastD ' ' = L := by
    rw [List.getLastD_eq_getLast?, hL]
    rfl
  by_cases hpunct : L = '.' ∨ L = '?' ∨ L = '!'
  · have hcond : ¬(t1 ≠ "" ∧ ¬(t1.data.getLastD ' ' = '.' ∨ t1.data.getLastD ' ' = '?' ∨ t1.data.getLastD ' ' = '!')) := by
      rw [hgd]
      intro hcon
      exact hcon.2 hpunct
    simp only [mkUtterance, if_neg hcond]
    exact ⟨L, punct_last_preserved _ _ hL hpunct, hpunct⟩
  · have hcond : t1 ≠ "" ∧ ¬(t1.data.getLastD ' ' = '.' ∨ t1.data.getLastD ' ' = '?' ∨ t1.data.getLastD ' ' = '!') := by
      rw [hgd]
      exact ⟨hne, hpunct⟩
    simp only [mkUtterance, if_pos hcond]
    have hdot : (t1 ++ ".").data.getLast? = some '.' := by
      rw [String.data_append]
      have hdotlit : ("." : String).data = ['.'] := rfl
      rw [hdotlit]
      exact List.getLast?_concat _
    exact ⟨'.', punct_last_preserved _ _ hdot (Or.inl rfl), Or.inl rfl⟩

theorem processResults_filterMap (restore : String → String) :
    ∀ groups : List (List Word),
      processResults restore groups = groups.filterMap (fun g =>
        match g with
        | [] => none
        | w :: ws => some (mkUtterance restore w ws)) := by
  intro groups
  induction groups with
  | nil => rfl
  | cons g rest ih =>
    cases g with
    | nil => simpa [processResults, List.filterMap_cons] using ih
    | cons w ws => simp [processResults, List.filterMap_cons, ih]

/-- C9 (amended): the normalizer skips exactly the groups with an empty word
list and emits, in input order, one utterance per non-empty group, whose
start is the first word's start rounded to 2 decimals, whose end is the last
word's end rounded to 2 decimals, and whose confidence is the arithmetic
mean of the word confidences; its text ends in `.`, `?` or `!` PROVIDED the
restored text is non-empty — a group whose restored text is empty (for
example empty word strings) yields an utterance with empty text and no
terminal punctuation, because the source guards the period append with
non-emptiness. -/
theorem C9_normalizer (restore : String → String) (groups : List (List Word)) :
    processResults restore groups = groups.filterMap (fun g =>
        match g with
        | [] => none
        | w :: ws => some (mkUtterance restore w ws)) ∧
      ∀ w ws, (mkUtterance restore w ws).start = round2 w.start ∧
        (mkUtterance restore w ws).stop = round2 ((ws.getLastD w).stop) ∧
        (mkUtterance restore w ws).confidence
          = ((w :: ws).map (fun x => x.conf)).sum / (((w :: ws).length : ℚ)) ∧
        (restore (joinSpace ((w :: ws).map (fun x => x.word))) ≠ "" →
          endsPunct (mkUtterance restore w ws).text) :=
  ⟨processResults_filterMap restore groups,
    fun w ws => ⟨rfl, rfl, rfl, mkUtterance_endsPunct restore w ws⟩⟩

def wEmpty : Word := { word := "", start := 0, stop := 1, conf := 1 }

/-- C9 counterexample: a non-empty group holding one empty-string word, with
the punctuation collaborator disabled (`restore = id`), produces an
utterance whose text is the empty string — which does not end in `.`, `?`
or `!`.  The claimed guarantee of terminal punctuation therefore fails as
stated. -/
theorem C9_empty_text_cex :
    processResults (fun s => s) [[wEmpty]]
        = [{ start := 0, stop := 1, text := "", confidence := 1, speaker := "SPK1" }] ∧
      ¬ endsPunct "" := by
  constructor
  · have h0 : round2 (0 : ℚ) = 0 := by norm_num [round2, roundHalfEven]
    have h1 : round2 (1 : ℚ) = 1 := by norm_num [round2, roundHalfEven, Int.floor_eq_iff]
    simp [processResults, mkUtterance, wEmpty, joinSpace, pyStrip, pyCapitalize, h0, h1]
  · rintro ⟨L, hL, _⟩
    cases hL
